import Mathlib

/-!
# Verification of the public-suffix name parser

A shallow embedding of the crate's name-parsing core: the error enumeration
and its display strings come directly from the crate's lib.rs; the suffix
matcher, label validator, and the domain/DNS parsers are modelled from the
specification (their modules are declared in lib.rs but their sources are
not part of the given tree), with the doc-tests of lib.rs as the fixed
observable behaviour.

Names are processed as lists of characters; a label is a list of
characters, and a name is a list of labels, most-significant label last.
-/

set_option autoImplicit false

namespace Psl

/-- The errors returned by the crate (from lib.rs). -/
inductive Error where
  | NameTooLong
  | EmptyLabel
  | EmailLocalTooLong
  | EmailTooLong
  | EmptyName
  | IllegalCharacter
  | InvalidDomain
  | InvalidIpAddr
  | LabelEndNotAlnum
  | LabelStartNotAlnum
  | LabelTooLong
  | NoAtSign
  | NoHostPart
  | NoUserPart
  | NumericTld
  | QuoteUnclosed
  | TooManyLabels
deriving DecidableEq, Repr

/-- The human-readable message of each error, transcribed from the
crate's Display implementation in lib.rs. -/
def errorMessage : Error → String
  | .NameTooLong => "name too long"
  | .EmptyLabel => "domain/email contains empty label"
  | .EmailLocalTooLong => "email local too long"
  | .EmailTooLong => "email too long"
  | .EmptyName => "name is empty"
  | .IllegalCharacter => "domain contains illegal characters"
  | .InvalidDomain => "invalid domain name"
  | .InvalidIpAddr => "email has an invalid ip address"
  | .LabelEndNotAlnum => "label does not start with an alphanumeric character"
  | .LabelStartNotAlnum => "label does not end with a alphanumeric character"
  | .LabelTooLong => "label too long"
  | .NoAtSign => "email address has no at sign"
  | .NoHostPart => "email address has no host part"
  | .NoUserPart => "email address has no user part"
  | .NumericTld => "numeric TLD"
  | .QuoteUnclosed => "email has an unclosed quotation mark"
  | .TooManyLabels => "too many labels"

/-! ## List utilities: splitting a name on the separator and rejoining -/

/-- Extend the first piece of a split with one more character. -/
def consHead (c : Char) : List (List Char) → List (List Char)
  | [] => [[c]]
  | x :: xs => (c :: x) :: xs

/-- Split a character list on the dot separator.  Always returns a
non-empty list of pieces; a trailing dot yields a trailing empty piece. -/
def splitDot : List Char → List (List Char)
  | [] => [[]]
  | c :: rest =>
    if c = '.' then [] :: splitDot rest
    else consHead c (splitDot rest)

/-- Rejoin labels with the dot separator. -/
def joinDot : List (List Char) → List Char
  | [] => []
  | [x] => x
  | x :: y :: ys => x ++ '.' :: joinDot (y :: ys)

/-- Boolean test that the first list is an initial segment of the second. -/
def beginsWith {α : Type} [DecidableEq α] : List α → List α → Bool
  | [], _ => true
  | _ :: _, [] => false
  | a :: as, b :: bs => a = b && beginsWith as bs

/-! ## The ruleset model (modelled from the spec, section 3) -/

/-- Modelled from the spec: the kind of a public-suffix rule — plain,
wildcard (one leading any-label position), or exception (carving a name
out of a wildcard); the matcher module is not part of the given tree. -/
inductive RuleKind where
  | plain
  | wildcard
  | exception
deriving DecidableEq, Repr

/-- Modelled from the spec: a public-suffix rule is an ordered label sequence,
stored most-significant label first (the order in which it is matched
against the reversed name), tagged with its kind.  For a wildcard rule the
stored labels are the explicit trailing labels, the wildcard position
being implicit. -/
structure Rule where
  labels : List (List Char)
  kind : RuleKind
deriving DecidableEq, Repr

/-- Modelled from the spec: the labels covered by a rule when it matches.
A plain rule covers its own labels; a wildcard rule covers one extra
(arbitrary) label; an exception rule carves the suffix boundary one label
shorter than its pattern. -/
def matchValue (r : Rule) : Nat :=
  match r.kind with
  | .plain => r.labels.length
  | .wildcard => r.labels.length + 1
  | .exception => r.labels.length - 1

/-- Modelled from the spec: whether a rule is applicable to a name given
as its reversed label sequence (most-significant label first).  A plain or
exception rule applies when its pattern is an initial segment of the
reversed name; a wildcard rule additionally requires one more label beyond
its explicit pattern. -/
def applies (r : Rule) (rev : List (List Char)) : Bool :=
  match r.kind with
  | .plain => beginsWith r.labels rev
  | .wildcard => beginsWith r.labels rev && decide (r.labels.length + 1 ≤ rev.length)
  | .exception => beginsWith r.labels rev

/-- Modelled from the spec: the result of the suffix matcher — how many
trailing labels form the public suffix, and whether an explicit
(non-default) rule matched. -/
structure MatchResult where
  suffixLabelCount : Nat
  isKnown : Bool
deriving DecidableEq, Repr

/-- Modelled from the spec: the applicable exception rules of a ruleset,
for a reversed name. -/
def applicableExcs (rules : List Rule) (rev : List (List Char)) : List Rule :=
  rules.filter fun r => decide (r.kind = RuleKind.exception) && applies r rev

/-- Modelled from the spec: the applicable non-exception (plain or
wildcard) rules of a ruleset, for a reversed name. -/
def applicableCands (rules : List Rule) (rev : List (List Char)) : List Rule :=
  rules.filter fun r => !(decide (r.kind = RuleKind.exception)) && applies r rev

/-- Modelled from the spec: the suffix matcher of section 4.2 over a
reversed label sequence (the matcher module is not part of the given
tree).  Exceptions take precedence over every other rule; otherwise the
longest applicable plain or wildcard match wins; otherwise the default
rule (one label, not known) applies. -/
def matchSuffixRev (rules : List Rule) (rev : List (List Char)) : MatchResult :=
  match applicableExcs rules rev with
  | e :: es => ⟨((e :: es).map matchValue).foldr max 0, true⟩
  | [] =>
    match applicableCands rules rev with
    | c :: cs => ⟨((c :: cs).map matchValue).foldr max 0, true⟩
    | [] => ⟨1, false⟩

/-- Modelled from the spec: the suffix matcher over a name given
most-significant label last. -/
def matchSuffix (rules : List Rule) (labels : List (List Char)) : MatchResult :=
  matchSuffixRev rules labels.reverse

/-! ## The external ASCII-compatible encoder and the label validator -/

/-- Whether every character of a label is in the ASCII range. -/
def allAscii (l : List Char) : Bool :=
  l.all fun c => c.toNat < 128

/-- Modelled from the spec: the external ASCII-compatible (IDNA/punycode)
encoder, an out-of-scope collaborator per section 1, assumed as a pure
function from a label to its ASCII form.  ASCII labels encode to
themselves; the two internationalized labels exercised by the crate's
doc-tests are tabulated; any other non-ASCII label fails, surfacing as an
invalid-domain error (spec, section 4.3 step 5). -/
def toAscii (label : List Char) : Except Error (List Char) :=
  if allAscii label then .ok label
  else if label = "食狮".toList then .ok "xn--85x722f".toList
  else if label = "中国".toList then .ok "xn--fiqs8s".toList
  else .error Error.InvalidDomain

/-- Modelled from the spec: the label validator of section 4.1 over one
ASCII-encoded label (the validator module is not part of the given
tree).  An empty label, then an encoded length over 63, fail first.  In
strict (plain-domain) mode the first and last characters must be
alphanumeric and every character alphanumeric or a hyphen; in DNS mode a
leading underscore is also permitted and the remainder must be
alphanumeric or hyphen. -/
def validateLabel (strict : Bool) (label : List Char) : Except Error Unit :=
  match label with
  | [] => .error Error.EmptyLabel
  | c :: rest =>
    if 63 < (c :: rest).length then .error Error.LabelTooLong
    else if strict then
      if !c.isAlphanum then .error Error.LabelStartNotAlnum
      else if !((c :: rest).getLastD c).isAlphanum then .error Error.LabelEndNotAlnum
      else if (c :: rest).all (fun ch => ch.isAlphanum || ch = '-') then .ok ()
      else .error Error.IllegalCharacter
    else
      let body := if c = '_' then rest else c :: rest
      if body.all (fun ch => ch.isAlphanum || ch = '-') then .ok ()
      else .error Error.IllegalCharacter

/-- Encode every label of a name, most-significant label last, failing on
the first label the external encoder rejects. -/
def encodeAll : List (List Char) → Except Error (List (List Char))
  | [] => .ok []
  | l :: ls =>
    match toAscii l with
    | .error e => .error e
    | .ok enc =>
      match encodeAll ls with
      | .error e => .error e
      | .ok encs => .ok (enc :: encs)

/-- Validate every encoded label of a name, failing on the first invalid
label. -/
def validateAll (strict : Bool) : List (List Char) → Except Error Unit
  | [] => .ok ()
  | l :: ls =>
    match validateLabel strict l with
    | .error e => .error e
    | .ok _ => validateAll strict ls

/-! ## The domain and DNS name parsers -/

/-- Modelled from the spec: a parsed name — its labels in original
written form (most-significant label last, the DNS terminator label
removed), whether a trailing terminator dot was present, and the
suffix-matcher outcome. -/
structure ParsedName where
  labels : List (List Char)
  trailingDot : Bool
  suffixLabelCount : Nat
  isKnown : Bool
deriving DecidableEq, Repr

/-- Modelled from the spec: the shared name parser of sections 4.3 and
4.4 (the domain and dns modules are not part of the given tree).
Steps in order: reject empty input; split on the separator, stripping one
trailing empty label in DNS mode only; reject names over 253 characters
(the terminator excluded); reject any remaining empty label; reject more
than 127 labels; encode every label through the external encoder; validate
every encoded label (strict mode for plain domains); for plain domains
reject an all-digit final label; finally run the suffix matcher over the
label sequence in its original written form. -/
def parseName (dns : Bool) (rules : List Rule) (text : List Char) :
    Except Error ParsedName :=
  if text.isEmpty then .error Error.EmptyName
  else
    let parts := splitDot text
    let trailing := dns && decide (parts.getLast? = some ([] : List Char))
    let core := if trailing then parts.dropLast else parts
    if 253 < text.length - (if trailing then 1 else 0) then .error Error.NameTooLong
    else if core.any List.isEmpty then .error Error.EmptyLabel
    else if 127 < core.length then .error Error.TooManyLabels
    else
      match encodeAll core with
      | .error e => .error e
      | .ok encs =>
        match validateAll (!dns) encs with
        | .error e => .error e
        | .ok _ =>
          if !dns && (encs.getLastD []).all Char.isDigit then .error Error.NumericTld
          else
            let m := matchSuffix rules core
            .ok ⟨core, trailing, m.suffixLabelCount, m.isKnown⟩

/-- Modelled from the spec: the labels forming the public suffix of a
parsed name. -/
def ParsedName.suffixLabels (d : ParsedName) : List (List Char) :=
  d.labels.drop (d.labels.length - d.suffixLabelCount)

/-- Modelled from the spec: the suffix accessor — the matched trailing
labels rejoined, the DNS terminator preserved when present. -/
def ParsedName.suffixChars (d : ParsedName) : List Char :=
  joinDot d.suffixLabels ++ (if d.trailingDot then ['.'] else [])

/-- Modelled from the spec: the root accessor — the suffix plus exactly
one more label, absent when the name has no label beyond its suffix. -/
def ParsedName.rootChars (d : ParsedName) : Option (List Char) :=
  if d.suffixLabelCount < d.labels.length then
    some (joinDot (d.labels.drop (d.labels.length - (d.suffixLabelCount + 1))) ++
      (if d.trailingDot then ['.'] else []))
  else none

/-- Modelled from the spec: the suffix accessor of a DNS name, absent
when the name has no label beyond the terminator. -/
def ParsedName.dnsSuffix (d : ParsedName) : Option (List Char) :=
  if d.labels.isEmpty then none else some d.suffixChars

/-- Modelled from the spec: the generated static ruleset of section 9
(not part of the given tree), restricted to the rules the crate's
doc-tests exercise plus the Public Suffix List's canonical
wildcard/exception pair under kobe.jp.
The list stores internationalized rules in their original written form
(the doc-tests match unencoded input against them directly) alongside the
ASCII rules. -/
def pslRules : List Rule :=
  [⟨["com".toList], .plain⟩,
   ⟨["com".toList, "uk".toList], .plain⟩,
   ⟨["cn".toList], .plain⟩,
   ⟨["cn".toList, "xn--55qx5d".toList], .plain⟩,
   ⟨["中国".toList], .plain⟩,
   ⟨["jp".toList], .plain⟩,
   ⟨["jp".toList, "kobe".toList], .wildcard⟩,
   ⟨["jp".toList, "kobe".toList, "city".toList], .exception⟩]

/-- Modelled from the spec: the crate's parse_domain_name over the
static ruleset. -/
def parseDomainName (text : List Char) : Except Error ParsedName :=
  parseName false pslRules text

/-- Modelled from the spec: the crate's parse_dns_name over the static
ruleset. -/
def parseDnsName (text : List Char) : Except Error ParsedName :=
  parseName true pslRules text

/-! ## Lemmas about initial segments -/

theorem beginsWith_iff_append {α : Type} [DecidableEq α] (p l : List α) :
    beginsWith p l = true ↔ ∃ t, l = p ++ t := by
  induction p generalizing l with
  | nil => simp [beginsWith]
  | cons a as ih =>
    cases l with
    | nil => simp [beginsWith]
    | cons b bs =>
      simp only [beginsWith, Bool.and_eq_true, decide_eq_true_eq, ih,
        List.cons_append, List.cons.injEq]
      constructor
      · rintro ⟨rfl, t, rfl⟩
        exact ⟨t, rfl, rfl⟩
      · rintro ⟨t, rfl, rfl⟩
        exact ⟨rfl, t, rfl⟩

theorem length_le_of_beginsWith {α : Type} [DecidableEq α] {p l : List α}
    (h : beginsWith p l = true) : p.length ≤ l.length := by
  rcases (beginsWith_iff_append p l).1 h with ⟨t, rfl⟩
  simp

theorem beginsWith_refl {α : Type} [DecidableEq α] (l : List α) :
    beginsWith l l = true :=
  (beginsWith_iff_append l l).2 ⟨[], by simp⟩

theorem eq_take_of_beginsWith {α : Type} [DecidableEq α] {p l : List α}
    (h : beginsWith p l = true) : p = l.take p.length := by
  rcases (beginsWith_iff_append p l).1 h with ⟨t, rfl⟩
  simp

theorem beginsWith_of_take {α : Type} [DecidableEq α] {p l : List α} {n : Nat}
    (h : beginsWith p (l.take n) = true) : beginsWith p l = true := by
  rcases (beginsWith_iff_append p (l.take n)).1 h with ⟨t, ht⟩
  exact (beginsWith_iff_append p l).2
    ⟨t ++ l.drop n, by rw [← List.append_assoc, ← ht, List.take_append_drop]⟩

theorem beginsWith_take {α : Type} [DecidableEq α] {p l : List α} {n : Nat}
    (h : beginsWith p l = true) (hn : p.length ≤ n) :
    beginsWith p (l.take n) = true := by
  rcases (beginsWith_iff_append p l).1 h with ⟨t, rfl⟩
  rw [List.take_append_eq_append_take, List.take_of_length_le hn]
  exact (beginsWith_iff_append p (p ++ t.take (n - p.length))).2 ⟨_, rfl⟩

/-! ## Lemmas about the maximum of a list of naturals -/

theorem le_foldrMax {x : Nat} {xs : List Nat} (h : x ∈ xs) :
    x ≤ xs.foldr max 0 := by
  induction xs with
  | nil => cases h
  | cons a as ih =>
    rcases List.mem_cons.1 h with rfl | h
    · exact le_max_left _ _
    · exact le_trans (ih h) (le_max_right _ _)

theorem foldrMax_le {b : Nat} {xs : List Nat} (h : ∀ x ∈ xs, x ≤ b) :
    xs.foldr max 0 ≤ b := by
  induction xs with
  | nil => exact Nat.zero_le b
  | cons a as ih =>
    exact max_le (h a (List.mem_cons_self a as))
      (ih fun x hx => h x (List.mem_cons_of_mem a hx))

theorem foldrMax_mem {xs : List Nat} (h : xs ≠ []) :
    xs.foldr max 0 ∈ xs := by
  induction xs with
  | nil => exact absurd rfl h
  | cons a as ih =>
    cases as with
    | nil => simp
    | cons b bs =>
      rcases Nat.le_total a ((b :: bs).foldr max 0) with hle | hle
      · rw [List.foldr_cons, max_eq_right hle]
        exact List.mem_cons_of_mem a (ih (by simp))
      · rw [List.foldr_cons, max_eq_left hle]
        exact List.mem_cons_self _ _

/-! ## Lemmas about splitting and joining -/

theorem splitDot_ne_nil (l : List Char) : splitDot l ≠ [] := by
  induction l with
  | nil => simp [splitDot]
  | cons c rest ih =>
    by_cases hc : c = '.'
    · simp [splitDot, hc]
    · simp only [splitDot, if_neg hc]
      cases h : splitDot rest with
      | nil => exact absurd h ih
      | cons x xs => simp [consHead]

theorem joinDot_cons (x : List Char) (l : List (List Char)) (h : l ≠ []) :
    joinDot (x :: l) = x ++ '.' :: joinDot l := by
  cases l with
  | nil => exact absurd rfl h
  | cons y ys => rfl

theorem joinDot_consHead (c : Char) (l : List (List Char)) (h : l ≠ []) :
    joinDot (consHead c l) = c :: joinDot l := by
  cases l with
  | nil => exact absurd rfl h
  | cons x xs =>
    cases xs with
    | nil => rfl
    | cons y ys => rfl

theorem joinDot_splitDot (l : List Char) : joinDot (splitDot l) = l := by
  induction l with
  | nil => rfl
  | cons c rest ih =>
    by_cases hc : c = '.'
    · rw [splitDot, if_pos hc, joinDot_cons _ _ (splitDot_ne_nil rest), ih, hc]
      rfl
    · rw [splitDot, if_neg hc, joinDot_consHead c _ (splitDot_ne_nil rest), ih]

theorem splitDot_no_dot (l : List Char) :
    ∀ p ∈ splitDot l, '.' ∉ p := by
  induction l with
  | nil =>
    intro p hp
    simp only [splitDot, List.mem_singleton] at hp
    simp [hp]
  | cons c rest ih =>
    intro p hp
    by_cases hc : c = '.'
    · rw [splitDot, if_pos hc] at hp
      rcases List.mem_cons.1 hp with rfl | hp
      · simp
      · exact ih p hp
    · rw [splitDot, if_neg hc] at hp
      cases h : splitDot rest with
      | nil => exact absurd h (splitDot_ne_nil rest)
      | cons x xs =>
        rw [h, consHead] at hp
        rcases List.mem_cons.1 hp with rfl | hp
        · intro hmem
          rcases List.mem_cons.1 hmem with hx | hx
          · exact hc hx.symm
          · exact ih x (h ▸ List.mem_cons_self x xs) hx
        · exact ih p (h ▸ List.mem_cons_of_mem x hp)

theorem splitDot_no_sep (l : List Char) (h : '.' ∉ l) : splitDot l = [l] := by
  induction l with
  | nil => rfl
  | cons c rest ih =>
    have hc : c ≠ '.' := fun hc => h (hc ▸ List.mem_cons_self c rest)
    rw [splitDot, if_neg (fun hcc => hc hcc),
      ih (fun hmem => h (List.mem_cons_of_mem c hmem))]
    rfl

theorem splitDot_append_sep (x t : List Char) (h : '.' ∉ x) :
    splitDot (x ++ '.' :: t) = x :: splitDot t := by
  induction x with
  | nil => simp [splitDot]
  | cons c x' ih =>
    have hc : c ≠ '.' := fun hc => h (hc ▸ List.mem_cons_self c x')
    rw [List.cons_append, splitDot, if_neg (fun hcc => hc hcc),
      ih (fun hmem => h (List.mem_cons_of_mem c hmem)), consHead]

theorem splitDot_joinDot (L : List (List Char)) (hne : L ≠ [])
    (hdot : ∀ p ∈ L, '.' ∉ p) : splitDot (joinDot L) = L := by
  induction L with
  | nil => exact absurd rfl hne
  | cons x xs ih =>
    cases xs with
    | nil => exact splitDot_no_sep x (hdot x (List.mem_cons_self x []))
    | cons y ys =>
      rw [joinDot_cons x (y :: ys) (by simp),
        splitDot_append_sep x _ (hdot x (List.mem_cons_self x (y :: ys))),
        ih (by simp) (fun p hp => hdot p (List.mem_cons_of_mem x hp))]

theorem length_joinDot_cons_le (x : List Char) (l : List (List Char)) :
    (joinDot l).length ≤ (joinDot (x :: l)).length := by
  cases l with
  | nil => simp [joinDot]
  | cons y ys =>
    rw [joinDot_cons x (y :: ys) (by simp)]
    simp only [List.length_append, List.length_cons]
    omega

theorem length_joinDot_drop_le (k : Nat) (L : List (List Char)) :
    (joinDot (L.drop k)).length ≤ (joinDot L).length := by
  induction k generalizing L with
  | zero => simp
  | succ k ih =>
    cases L with
    | nil => simp
    | cons x xs =>
      calc (joinDot ((x :: xs).drop (k + 1))).length
          = (joinDot (xs.drop k)).length := by rw [List.drop_succ_cons]
        _ ≤ (joinDot xs).length := ih xs
        _ ≤ (joinDot (x :: xs)).length := length_joinDot_cons_le x xs

theorem joinDot_ne_nil (L : List (List Char)) (hne : L ≠ [])
    (hpieces : ∀ p ∈ L, p ≠ []) : joinDot L ≠ [] := by
  cases L with
  | nil => exact absurd rfl hne
  | cons x xs =>
    cases xs with
    | nil => exact hpieces x (List.mem_cons_self x [])
    | cons y ys =>
      rw [joinDot_cons x (y :: ys) (by simp)]
      intro h
      have hx : x = [] := by
        have := congrArg List.length h
        simp only [List.length_append, List.length_cons, List.length_nil] at this
        exact List.length_eq_zero.1 (by omega)
      exact hpieces x (List.mem_cons_self x (y :: ys)) hx

theorem length_joinDot_drop_lt (k : Nat) (L : List (List Char)) (hk : 1 ≤ k)
    (hkL : k ≤ L.length) (hpieces : ∀ p ∈ L, p ≠ []) :
    (joinDot (L.drop k)).length < (joinDot L).length := by
  cases L with
  | nil => simp at hkL; omega
  | cons x xs =>
    have hx : x ≠ [] := hpieces x (List.mem_cons_self x xs)
    have hxlen : 1 ≤ x.length := by
      cases x with
      | nil => exact absurd rfl hx
      | cons a as => simp
    cases k with
    | zero => omega
    | succ k =>
      rw [List.drop_succ_cons]
      cases xs with
      | nil =>
        simp only [List.length_cons, List.length_nil] at hkL
        have : k = 0 := by omega
        subst this
        simpa [joinDot] using hxlen
      | cons y ys =>
        calc (joinDot ((y :: ys).drop k)).length
            ≤ (joinDot (y :: ys)).length := length_joinDot_drop_le k (y :: ys)
          _ < (joinDot (x :: y :: ys)).length := by
              rw [joinDot_cons x (y :: ys) (by simp)]
              simp only [List.length_append, List.length_cons]
              omega

/-! ## Lemmas about the suffix matcher -/

theorem mem_applicableExcs {rules : List Rule} {rev : List (List Char)} {r : Rule} :
    r ∈ applicableExcs rules rev ↔
      r ∈ rules ∧ r.kind = RuleKind.exception ∧ applies r rev = true := by
  simp [applicableExcs, List.mem_filter, Bool.and_eq_true, and_assoc]

theorem mem_applicableCands {rules : List Rule} {rev : List (List Char)} {r : Rule} :
    r ∈ applicableCands rules rev ↔
      r ∈ rules ∧ ¬r.kind = RuleKind.exception ∧ applies r rev = true := by
  simp [applicableCands, List.mem_filter, Bool.and_eq_true, and_assoc]

theorem value_le_length {r : Rule} {rev : List (List Char)}
    (h : applies r rev = true) : matchValue r ≤ rev.length := by
  obtain ⟨labels, kind⟩ := r
  cases kind with
  | plain =>
    simp only [applies] at h
    simpa [matchValue] using length_le_of_beginsWith h
  | wildcard =>
    simp only [applies, Bool.and_eq_true, decide_eq_true_eq] at h
    simpa [matchValue] using h.2
  | exception =>
    simp only [applies] at h
    have := length_le_of_beginsWith h
    simp only [matchValue]
    omega

theorem matchSuffixRev_count_le {rules : List Rule} {rev : List (List Char)}
    (h : rev ≠ []) : (matchSuffixRev rules rev).suffixLabelCount ≤ rev.length := by
  unfold matchSuffixRev
  cases hexc : applicableExcs rules rev with
  | cons e es =>
    simp only
    refine foldrMax_le ?_
    intro x hx
    rcases List.mem_map.1 hx with ⟨r, hr, rfl⟩
    exact value_le_length (mem_applicableExcs.1 (hexc ▸ hr)).2.2
  | nil =>
    cases hcand : applicableCands rules rev with
    | cons c cs =>
      simp only
      refine foldrMax_le ?_
      intro x hx
      rcases List.mem_map.1 hx with ⟨r, hr, rfl⟩
      exact value_le_length (mem_applicableCands.1 (hcand ▸ hr)).2.2
    | nil =>
      simp only
      cases rev with
      | nil => exact absurd rfl h
      | cons a as => simp

theorem matchSuffixRev_count_pos {rules : List Rule} {rev : List (List Char)}
    (hval : ∀ r ∈ rules, 1 ≤ matchValue r) :
    1 ≤ (matchSuffixRev rules rev).suffixLabelCount := by
  unfold matchSuffixRev
  cases he : applicableExcs rules rev with
  | cons e es =>
    have hmem := mem_applicableExcs.1 (he ▸ List.mem_cons_self e es)
    exact le_trans (hval e hmem.1)
      (le_foldrMax (List.mem_map.2 ⟨e, List.mem_cons_self e es, rfl⟩))
  | nil =>
    cases hcand : applicableCands rules rev with
    | nil => simp
    | cons c cs =>
      have hmem := mem_applicableCands.1 (hcand ▸ List.mem_cons_self c cs)
      exact le_trans (hval c hmem.1)
        (le_foldrMax (List.mem_map.2 ⟨c, List.mem_cons_self c cs, rfl⟩))

theorem matchSuffixRev_default {rules : List Rule} {rev : List (List Char)}
    (h : (matchSuffixRev rules rev).isKnown = false) :
    (matchSuffixRev rules rev).suffixLabelCount = 1 := by
  unfold matchSuffixRev at h ⊢
  cases he : applicableExcs rules rev with
  | cons e es => rw [he] at h; simp at h
  | nil =>
    rw [he] at h
    cases hcand : applicableCands rules rev with
    | cons c cs => rw [hcand] at h; simp at h
    | nil => rfl

theorem applies_of_take {r : Rule} {rev : List (List Char)} {n : Nat}
    (h : applies r (rev.take n) = true) : applies r rev = true := by
  obtain ⟨labels, kind⟩ := r
  cases kind with
  | plain =>
    simp only [applies] at h ⊢
    exact beginsWith_of_take h
  | exception =>
    simp only [applies] at h ⊢
    exact beginsWith_of_take h
  | wildcard =>
    simp only [applies, Bool.and_eq_true, decide_eq_true_eq] at h ⊢
    obtain ⟨h1, h2⟩ := h
    have hlen : (rev.take n).length ≤ rev.length := by
      rw [List.length_take]; omega
    exact ⟨beginsWith_of_take h1, by omega⟩

/-- Matching the suffix that the matcher itself selected (the last
`n` labels, given here as the first `n` of the reversed sequence) selects
that whole suffix again, provided no exception rule of the ruleset
applies to the name. -/
theorem matchSuffixRev_take_self {rules : List Rule} {rev : List (List Char)}
    (hexc : ∀ e ∈ rules, e.kind = RuleKind.exception → applies e rev = false)
    (hn : (matchSuffixRev rules rev).suffixLabelCount ≤ rev.length) :
    (matchSuffixRev rules
        (rev.take (matchSuffixRev rules rev).suffixLabelCount)).suffixLabelCount =
      (matchSuffixRev rules rev).suffixLabelCount := by
  have hexcnil_rev : applicableExcs rules rev = [] := by
    refine List.filter_eq_nil_iff.2 ?_
    intro r hr
    simp only [Bool.and_eq_true, decide_eq_true_eq, not_and]
    intro hk hap
    rw [hexc r hr hk] at hap
    cases hap
  set n := (matchSuffixRev rules rev).suffixLabelCount with hdefn
  have htklen : (rev.take n).length = n := by
    rw [List.length_take]; omega
  have hexcnil_take : applicableExcs rules (rev.take n) = [] := by
    refine List.filter_eq_nil_iff.2 ?_
    intro r hr
    simp only [Bool.and_eq_true, decide_eq_true_eq, not_and]
    intro hk hap
    have h2 := applies_of_take hap
    rw [hexc r hr hk] at h2
    cases h2
  rw [matchSuffixRev, hexcnil_rev] at hdefn
  unfold matchSuffixRev
  rw [hexcnil_take]
  cases hcand : applicableCands rules rev with
  | nil =>
    rw [hcand] at hdefn
    simp only at hdefn
    have : applicableCands rules (rev.take n) = [] := by
      refine List.filter_eq_nil_iff.2 ?_
      intro r hr
      simp only [Bool.and_eq_true, Bool.not_eq_true', decide_eq_false_iff_not, not_and]
      intro hk ha
      have hmem : r ∈ applicableCands rules rev :=
        mem_applicableCands.2 ⟨hr, hk, applies_of_take ha⟩
      rw [hcand] at hmem
      cases hmem
    rw [this]
    exact hdefn.symm
  | cons c cs =>
    rw [hcand] at hdefn
    simp only at hdefn
    have hmax : n ∈ ((c :: cs).map matchValue) := hdefn ▸ foldrMax_mem (by simp)
    rcases List.mem_map.1 hmax with ⟨rstar, hrs, hrsval⟩
    have hrs' := mem_applicableCands.1 (hcand ▸ hrs)
    obtain ⟨slabels, skind⟩ := rstar
    have happ : applies ⟨slabels, skind⟩ (rev.take n) = true := by
      cases skind with
      | plain =>
        simp only [applies] at hrs' ⊢
        simp only [matchValue] at hrsval
        exact beginsWith_take hrs'.2.2 (by omega)
      | wildcard =>
        simp only [applies, Bool.and_eq_true, decide_eq_true_eq] at hrs' ⊢
        simp only [matchValue] at hrsval
        exact ⟨beginsWith_take hrs'.2.2.1 (by omega), by omega⟩
      | exception => exact absurd rfl hrs'.2.1
    have hmem : (⟨slabels, skind⟩ : Rule) ∈ applicableCands rules (rev.take n) :=
      mem_applicableCands.2 ⟨hrs'.1, hrs'.2.1, happ⟩
    cases hcand' : applicableCands rules (rev.take n) with
    | nil => rw [hcand'] at hmem; cases hmem
    | cons c' cs' =>
      simp only
      refine Nat.le_antisymm ?_ ?_
      · refine foldrMax_le ?_
        intro x hx
        rcases List.mem_map.1 hx with ⟨r, hr, rfl⟩
        have := value_le_length (mem_applicableCands.1 (hcand' ▸ hr)).2.2
        omega
      · rw [hcand'] at hmem
        exact hrsval ▸ le_foldrMax (List.mem_map.2 ⟨⟨slabels, skind⟩, hmem, rfl⟩)

/-! ## Lemmas about encoding and validation of label sequences -/

theorem encodeAll_append_ok {A B : List (List Char)} {es : List (List Char)}
    (h : encodeAll (A ++ B) = .ok es) :
    ∃ ea eb, encodeAll A = .ok ea ∧ encodeAll B = .ok eb ∧ es = ea ++ eb := by
  induction A generalizing es with
  | nil => exact ⟨[], es, rfl, h, rfl⟩
  | cons x xs ih =>
    rw [List.cons_append, encodeAll] at h
    cases hx : toAscii x with
    | error e => rw [hx] at h; cases h
    | ok enc =>
      rw [hx] at h
      cases hxs : encodeAll (xs ++ B) with
      | error e => rw [hxs] at h; cases h
      | ok rest =>
        rw [hxs] at h
        cases h
        rcases ih hxs with ⟨ea, eb, hea, heb, rfl⟩
        exact ⟨enc :: ea, eb, by rw [encodeAll, hx, hea], heb, rfl⟩

theorem encodeAll_length {L es : List (List Char)}
    (h : encodeAll L = .ok es) : es.length = L.length := by
  induction L generalizing es with
  | nil => cases h; rfl
  | cons x xs ih =>
    rw [encodeAll] at h
    cases hx : toAscii x with
    | error e => rw [hx] at h; cases h
    | ok enc =>
      rw [hx] at h
      cases hxs : encodeAll xs with
      | error e => rw [hxs] at h; cases h
      | ok rest =>
        rw [hxs] at h
        cases h
        simp [ih hxs]

theorem encodeAll_mem {L es : List (List Char)} {l e : List Char}
    (h : encodeAll L = .ok es) (hl : l ∈ L) (he : toAscii l = .ok e) :
    e ∈ es := by
  induction L generalizing es with
  | nil => cases hl
  | cons x xs ih =>
    rw [encodeAll] at h
    cases hx : toAscii x with
    | error err => rw [hx] at h; cases h
    | ok enc =>
      rw [hx] at h
      cases hxs : encodeAll xs with
      | error err => rw [hxs] at h; cases h
      | ok rest =>
        rw [hxs] at h
        cases h
        rcases List.mem_cons.1 hl with rfl | hl
        · rw [hx] at he
          cases he
          exact List.mem_cons_self _ _
        · exact List.mem_cons_of_mem _ (ih hxs hl)

theorem validateAll_append_ok {s : Bool} {A B : List (List Char)}
    (h : validateAll s (A ++ B) = .ok ()) : validateAll s B = .ok () := by
  induction A with
  | nil => exact h
  | cons x xs ih =>
    rw [List.cons_append, validateAll] at h
    cases hx : validateLabel s x with
    | error e => rw [hx] at h; cases h
    | ok u => rw [hx] at h; exact ih h

theorem validateAll_mem {s : Bool} {es : List (List Char)} {e : List Char}
    (h : validateAll s es = .ok ()) (he : e ∈ es) :
    validateLabel s e = .ok () := by
  induction es with
  | nil => cases he
  | cons x xs ih =>
    rw [validateAll] at h
    cases hx : validateLabel s x with
    | error err => rw [hx] at h; cases h
    | ok u =>
      rw [hx] at h
      rcases List.mem_cons.1 he with rfl | he
      · cases u; exact hx
      · exact ih h he

theorem validateLabel_ok_length {s : Bool} {e : List Char}
    (h : validateLabel s e = .ok ()) : e.length ≤ 63 := by
  cases e with
  | nil => rw [validateLabel] at h; cases h
  | cons c rest =>
    rw [validateLabel] at h
    by_cases hlen : 63 < (c :: rest).length
    · rw [if_pos hlen] at h; cases h
    · omega

theorem getLastD_indep {α : Type} (B : List α) (hB : B ≠ []) (d d' : α) :
    B.getLastD d = B.getLastD d' := by
  cases B with
  | nil => exact absurd rfl hB
  | cons b bs => rw [List.getLastD_cons, List.getLastD_cons]

theorem getLastD_append {α : Type} (A B : List α) (hB : B ≠ []) (d : α) :
    (A ++ B).getLastD d = B.getLastD d := by
  induction A generalizing d with
  | nil => rfl
  | cons a as ih =>
    rw [List.cons_append, List.getLastD_cons, ih a, getLastD_indep B hB a d]

/-! ## Inversion and construction for the domain parser -/

theorem any_isEmpty_false {L : List (List Char)} :
    L.any List.isEmpty = false ↔ ∀ l ∈ L, l ≠ [] := by
  rw [List.any_eq_false]
  constructor
  · intro h l hl
    have := h l hl
    simpa [List.isEmpty_iff] using this
  · intro h l hl
    simpa [List.isEmpty_iff] using h l hl

/-- In plain-domain mode (no DNS terminator) the parser unfolds to a
straight-line chain of checks. -/
theorem parseName_false_eq (R : List Rule) (text : List Char) :
    parseName false R text =
      (if text.isEmpty then .error Error.EmptyName
       else if 253 < text.length then .error Error.NameTooLong
       else if (splitDot text).any List.isEmpty then .error Error.EmptyLabel
       else if 127 < (splitDot text).length then .error Error.TooManyLabels
       else
         match encodeAll (splitDot text) with
         | .error e => .error e
         | .ok encs =>
           match validateAll true encs with
           | .error e => .error e
           | .ok _ =>
             if (encs.getLastD []).all Char.isDigit then .error Error.NumericTld
             else .ok ⟨splitDot text, false,
               (matchSuffix R (splitDot text)).suffixLabelCount,
               (matchSuffix R (splitDot text)).isKnown⟩) := rfl

theorem parseName_domain_inv {R : List Rule} {text : List Char} {d : ParsedName}
    (h : parseName false R text = .ok d) :
    d.labels = splitDot text ∧ d.trailingDot = false ∧
    text.isEmpty = false ∧ text.length ≤ 253 ∧
    (splitDot text).any List.isEmpty = false ∧
    (splitDot text).length ≤ 127 ∧
    (∃ encs, encodeAll (splitDot text) = .ok encs ∧
      validateAll true encs = .ok () ∧
      (encs.getLastD []).all Char.isDigit = false) ∧
    d.suffixLabelCount = (matchSuffix R (splitDot text)).suffixLabelCount ∧
    d.isKnown = (matchSuffix R (splitDot text)).isKnown := by
  rw [parseName_false_eq] at h
  split at h
  · exact Except.noConfusion h
  next hne =>
    split at h
    · exact Except.noConfusion h
    next hlen =>
      split at h
      · exact Except.noConfusion h
      next hemp =>
        split at h
        · exact Except.noConfusion h
        next hcnt =>
          cases henc : encodeAll (splitDot text) with
          | error e => rw [henc] at h; simp only at h; exact Except.noConfusion h
          | ok encs =>
            rw [henc] at h
            simp only at h
            cases hval : validateAll true encs with
            | error e => rw [hval] at h; simp only at h; exact Except.noConfusion h
            | ok u =>
              cases u
              rw [hval] at h
              simp only at h
              split at h
              · exact Except.noConfusion h
              next hnum =>
                cases h
                refine ⟨rfl, rfl, Bool.of_not_eq_true hne, by omega,
                  Bool.of_not_eq_true hemp, by omega,
                  ⟨encs, rfl, hval, Bool.of_not_eq_true hnum⟩, rfl, rfl⟩

theorem parseName_domain_ok (R : List Rule) (text : List Char)
    (hne : text.isEmpty = false) (hlen : text.length ≤ 253)
    (hemp : (splitDot text).any List.isEmpty = false)
    (hcnt : (splitDot text).length ≤ 127)
    {encs : List (List Char)} (henc : encodeAll (splitDot text) = .ok encs)
    (hval : validateAll true encs = .ok ())
    (hnum : (encs.getLastD []).all Char.isDigit = false) :
    parseName false R text = .ok ⟨splitDot text, false,
      (matchSuffix R (splitDot text)).suffixLabelCount,
      (matchSuffix R (splitDot text)).isKnown⟩ := by
  rw [parseName_false_eq, hne]
  simp only [Bool.false_eq_true, if_false]
  rw [if_neg (by omega), hemp]
  simp only [Bool.false_eq_true, if_false]
  rw [if_neg (by omega), henc]
  simp only
  rw [hval]
  simp only
  rw [hnum]
  simp only [Bool.false_eq_true, if_false]

theorem isEmpty_false_of_ne {l : List Char} (h : l ≠ []) : l.isEmpty = false := by
  cases l with
  | nil => exact absurd rfl h
  | cons a as => rfl

theorem pslRules_value_pos : ∀ r ∈ pslRules, 1 ≤ matchValue r := by decide

/-- C6 (amended): re-parsing the suffix of an accepted domain to which no
exception rule of the ruleset applies yields a root-less domain whose
suffix is the whole re-parsed input; a suffix carved out by an exception
rule is exempt (see the counterexample at www.city.kobe.jp). -/
theorem parse_suffix_idempotent (text : List Char) (d : ParsedName)
    (h : parseDomainName text = .ok d)
    (hnoexc : ∀ e ∈ pslRules, e.kind = RuleKind.exception →
      applies e d.labels.reverse = false) :
    ∃ d2, parseDomainName d.suffixChars = .ok d2 ∧
      d2.rootChars = none ∧ d2.suffixChars = d.suffixChars := by
  obtain ⟨hlab, htd, hne, hlen, hemp, hcnt, ⟨encs, henc, hval, hnum⟩, hcount, hknown⟩ :=
    parseName_domain_inv h
  have hLne : splitDot text ≠ [] := splitDot_ne_nil text
  have hpieces : ∀ p ∈ splitDot text, p ≠ [] := any_isEmpty_false.1 hemp
  have hnoexcL : ∀ e ∈ pslRules, e.kind = RuleKind.exception →
      applies e (splitDot text).reverse = false := by
    rw [← hlab]
    exact hnoexc
  have hn_le : (matchSuffix pslRules (splitDot text)).suffixLabelCount ≤
      (splitDot text).length := by
    have := @matchSuffixRev_count_le pslRules
      ((splitDot text).reverse) (by simpa using hLne)
    simpa [matchSuffix] using this
  have hn_pos : 1 ≤ (matchSuffix pslRules (splitDot text)).suffixLabelCount :=
    matchSuffixRev_count_pos pslRules_value_pos
  set L := splitDot text with hL
  set n := (matchSuffix pslRules L).suffixLabelCount with hn
  set S := L.drop (L.length - n) with hS
  have hSlen : S.length = n := by rw [hS, List.length_drop]; omega
  have hSsub : ∀ p ∈ S, p ∈ L := fun p hp => List.mem_of_mem_drop hp
  have hSne : S ≠ [] := by
    intro h0
    rw [h0] at hSlen
    simp at hSlen
    omega
  have hSpieces : ∀ p ∈ S, p ≠ [] := fun p hp => hpieces p (hSsub p hp)
  have hSdot : ∀ p ∈ S, '.' ∉ p := fun p hp => splitDot_no_dot text p (hSsub p hp)
  have hsplitS : splitDot (joinDot S) = S := splitDot_joinDot S hSne hSdot
  have hdsuf : d.suffixChars = joinDot S := by
    rw [ParsedName.suffixChars, ParsedName.suffixLabels, hlab, htd, hcount]
    simp
  -- checks of the re-parse
  have hne2 : (joinDot S).isEmpty = false :=
    isEmpty_false_of_ne (joinDot_ne_nil S hSne hSpieces)
  have hlen2 : (joinDot S).length ≤ 253 := by
    have h1 := length_joinDot_drop_le (L.length - n) L
    rw [← hS] at h1
    have h2 : (joinDot L).length = text.length := by
      rw [hL, joinDot_splitDot]
    omega
  have hemp2 : (splitDot (joinDot S)).any List.isEmpty = false := by
    rw [hsplitS]
    exact any_isEmpty_false.2 hSpieces
  have hcnt2 : (splitDot (joinDot S)).length ≤ 127 := by
    rw [hsplitS, hSlen]
    omega
  have hLsplit : L.take (L.length - n) ++ S = L := List.take_append_drop _ L
  obtain ⟨ea, eb, hea, heb, hencseq⟩ := encodeAll_append_ok (hLsplit.symm ▸ henc)
  have heb' : encodeAll (splitDot (joinDot S)) = .ok eb := by rw [hsplitS]; exact heb
  have hval2 : validateAll true eb = .ok () :=
    validateAll_append_ok (hencseq ▸ hval)
  have heblen : eb.length = n := by rw [encodeAll_length heb, hSlen]
  have hebne : eb ≠ [] := by
    intro h0
    rw [h0] at heblen
    simp at heblen
    omega
  have hnum2 : (eb.getLastD []).all Char.isDigit = false := by
    have := getLastD_append ea eb hebne ([] : List Char)
    rw [← this, ← hencseq]
    exact hnum
  -- the matcher gives the whole suffix back
  have hrevS : S.reverse = L.reverse.take n := by
    rw [hS, List.reverse_drop]
    congr 1
    omega
  have hmS : (matchSuffix pslRules S).suffixLabelCount = n := by
    rw [matchSuffix, hrevS]
    have hrle : (matchSuffixRev pslRules L.reverse).suffixLabelCount ≤
        L.reverse.length := by
      rw [List.length_reverse]
      exact hn_le
    have := @matchSuffixRev_take_self pslRules
      L.reverse hnoexcL hrle
    exact this
  have hmS' : (matchSuffix pslRules (splitDot (joinDot S))).suffixLabelCount = n := by
    rw [hsplitS]; exact hmS
  refine ⟨⟨splitDot (joinDot S), false,
      (matchSuffix pslRules (splitDot (joinDot S))).suffixLabelCount,
      (matchSuffix pslRules (splitDot (joinDot S))).isKnown⟩,
    hdsuf ▸ parseName_domain_ok pslRules (joinDot S) hne2 hlen2 hemp2 hcnt2
      heb' hval2 hnum2, ?_, ?_⟩
  · rw [ParsedName.rootChars]
    simp only [hmS', hsplitS, hSlen]
    rw [if_neg (by omega)]
  · rw [ParsedName.suffixChars, ParsedName.suffixLabels]
    simp only [hmS', hsplitS, hSlen, hmS, Nat.sub_self, List.drop_zero]
    rw [hdsuf]
    simp

/-! ## Claim theorems -/

/-- A small synthetic ruleset and name exercising two plain rules of
different lengths. -/
def demoRules1 : List Rule :=
  [⟨[['a']], .plain⟩, ⟨[['a'], ['b']], .plain⟩]

def demoLabels1 : List (List Char) := [['w'], ['b'], ['a']]

/-- A small synthetic ruleset and name exercising an exception rule
against a wildcard rule of greater nominal depth. -/
def demoRules2 : List Rule :=
  [⟨[['a']], .wildcard⟩, ⟨[['a'], ['b']], .exception⟩]

def demoLabels2 : List (List Char) := [['b'], ['a']]

/-- C1: among applicable non-exception rules the matcher's selected count
covers the longer rule; and whenever an exception rule applies (in
particular alongside a wildcard of the same or greater nominal depth), the
result is the value of a longest applicable exception rule. -/
theorem matchSuffix_longest (rules : List Rule) (labels : List (List Char)) :
    ((∀ e ∈ rules, e.kind = RuleKind.exception → applies e labels.reverse = false) →
      ∀ r1 r2 : Rule, r1 ∈ rules → r2 ∈ rules →
        applies r1 labels.reverse = true → applies r2 labels.reverse = true →
        r1.kind ≠ RuleKind.exception → r2.kind ≠ RuleKind.exception →
        matchValue r1 < matchValue r2 →
        matchValue r2 ≤ (matchSuffix rules labels).suffixLabelCount)
    ∧ (∀ e w : Rule, e ∈ rules → w ∈ rules →
        e.kind = RuleKind.exception → w.kind = RuleKind.wildcard →
        applies e labels.reverse = true → applies w labels.reverse = true →
        matchValue e ≤ matchValue w →
        (matchSuffix rules labels).isKnown = true ∧
        ∃ e2 ∈ rules, e2.kind = RuleKind.exception ∧
          applies e2 labels.reverse = true ∧
          (matchSuffix rules labels).suffixLabelCount = matchValue e2 ∧
          ∀ e3 ∈ rules, e3.kind = RuleKind.exception →
            applies e3 labels.reverse = true → matchValue e3 ≤ matchValue e2) := by
  constructor
  · intro hnoexc r1 r2 h1 h2 ha1 ha2 hk1 hk2 hlt
    have hexcnil : applicableExcs rules labels.reverse = [] := by
      refine List.filter_eq_nil_iff.2 ?_
      intro r hr
      simp only [Bool.and_eq_true, decide_eq_true_eq, not_and]
      intro hk
      rw [hnoexc r hr hk]
      simp
    have hmem : r2 ∈ applicableCands rules labels.reverse :=
      mem_applicableCands.2 ⟨h2, hk2, ha2⟩
    unfold matchSuffix matchSuffixRev
    rw [hexcnil]
    cases hcand : applicableCands rules labels.reverse with
    | nil => rw [hcand] at hmem; cases hmem
    | cons c cs =>
      rw [hcand] at hmem
      exact le_foldrMax (List.mem_map.2 ⟨r2, hmem, rfl⟩)
  · intro e w he hw hek hwk hae haw hle
    have hmem : e ∈ applicableExcs rules labels.reverse :=
      mem_applicableExcs.2 ⟨he, hek, hae⟩
    unfold matchSuffix matchSuffixRev
    cases hexc : applicableExcs rules labels.reverse with
    | nil => rw [hexc] at hmem; cases hmem
    | cons e1 es =>
      refine ⟨rfl, ?_⟩
      have hmx := @foldrMax_mem ((e1 :: es).map matchValue) (by simp)
      rcases List.mem_map.1 hmx with ⟨e2, he2, he2v⟩
      have he2' := mem_applicableExcs.1 (hexc ▸ he2)
      refine ⟨e2, he2'.1, he2'.2.1, he2'.2.2, he2v.symm, ?_⟩
      intro e3 h3 hk3 ha3
      have h3' : e3 ∈ applicableExcs rules labels.reverse :=
        mem_applicableExcs.2 ⟨h3, hk3, ha3⟩
      rw [hexc] at h3'
      exact he2v ▸ le_foldrMax (List.mem_map.2 ⟨e3, h3', rfl⟩)

theorem matchSuffix_longest_witness :
    (2 ≤ (matchSuffix demoRules1 demoLabels1).suffixLabelCount) ∧
    ((matchSuffix demoRules2 demoLabels2).isKnown = true ∧
      ∃ e2 ∈ demoRules2, e2.kind = RuleKind.exception ∧
        applies e2 demoLabels2.reverse = true ∧
        (matchSuffix demoRules2 demoLabels2).suffixLabelCount = matchValue e2 ∧
        ∀ e3 ∈ demoRules2, e3.kind = RuleKind.exception →
          applies e3 demoLabels2.reverse = true → matchValue e3 ≤ matchValue e2) := by
  constructor
  · exact (matchSuffix_longest demoRules1 demoLabels1).1 (by decide)
      ⟨[['a']], .plain⟩ ⟨[['a'], ['b']], .plain⟩ (by decide) (by decide)
      (by decide) (by decide) (by decide) (by decide) (by decide)
  · exact (matchSuffix_longest demoRules2 demoLabels2).2
      ⟨[['a'], ['b']], .exception⟩ ⟨[['a']], .wildcard⟩ (by decide) (by decide)
      rfl rfl (by decide) (by decide) (by decide)

/-- C2: parsing www.example.com gives suffix com, root example.com and a
known suffix, as the crate's doc-test asserts. -/
theorem parse_www_example_com :
    (parseDomainName "www.example.com".toList).map
      (fun d => (d.suffixChars, d.rootChars, d.isKnown)) =
    .ok ("com".toList, some "example.com".toList, true) := rfl

/-- C3: parsing a.b.example.uk.com gives suffix uk.com and root
example.uk.com, the longer uk.com rule beating the com rule. -/
theorem parse_a_b_example_uk_com :
    (parseDomainName "a.b.example.uk.com".toList).map
      (fun d => (d.suffixChars, d.rootChars, d.isKnown)) =
    .ok ("uk.com".toList, some "example.uk.com".toList, true) := rfl

/-- C4 counterexample: the suffix returned for www.食狮.中国 is the
original written form 中国, not its ASCII-compatible encoding, exactly as
the crate's own doc-test asserts. -/
theorem parse_idn_suffix_not_encoded :
    (parseDomainName "www.食狮.中国".toList).map (fun d => d.suffixChars) =
      .ok "中国".toList ∧
    "中国".toList ≠ "xn--fiqs8s".toList := ⟨rfl, by decide⟩

/-- C4 (amended): parsing www.食狮.中国 succeeds with a known suffix;
the accessors return the original written forms 中国 and 食狮.中国, while
the ASCII-compatible encodings are produced and used for validation. -/
theorem parse_idn_original_form :
    (parseDomainName "www.食狮.中国".toList).map
      (fun d => (d.suffixChars, d.rootChars, d.isKnown)) =
      .ok ("中国".toList, some "食狮.中国".toList, true) ∧
    toAscii "中国".toList = .ok "xn--fiqs8s".toList ∧
    toAscii "食狮".toList = .ok "xn--85x722f".toList := ⟨rfl, rfl, rfl⟩

/-- C5: parsing _tcp.example.com. as a DNS name succeeds (leading
underscore and one trailing empty label permitted) and the suffix keeps
the trailing terminator: com. -/
theorem parse_dns_tcp :
    (parseDnsName "_tcp.example.com.".toList).map (fun d => d.dnsSuffix) =
      .ok (some "com.".toList) := rfl

/-- The parsed form of www.example.com, used to instantiate the
hypothesis-carrying claims at a concrete input. -/
def wwwParsed : ParsedName :=
  ⟨["www".toList, "example".toList, "com".toList], false, 1, true⟩

/-- C7: for every accepted domain, the root is absent exactly when the
whole name is its own suffix (equivalently, there are fewer than
suffix-count-plus-one labels); otherwise the root is the suffix plus
exactly one more label; the suffix is never empty; and when no explicit
rule matched, the suffix falls back to the single top label. -/
theorem root_suffix_invariants (text : List Char) (d : ParsedName)
    (h : parseDomainName text = .ok d) :
    (d.rootChars = none ↔
      (d.suffixChars = text ∨ d.labels.length < d.suffixLabelCount + 1)) ∧
    (∀ r, d.rootChars = some r →
      ∃ lab ∈ d.labels, r = joinDot (lab :: d.suffixLabels)) ∧
    d.suffixChars ≠ [] ∧
    (d.isKnown = false → d.suffixLabelCount = 1) := by
  obtain ⟨hlab, htd, hne, hlen, hemp, hcnt, hencs, hcount, hknown⟩ :=
    parseName_domain_inv h
  have hLne : splitDot text ≠ [] := splitDot_ne_nil text
  have hpieces : ∀ p ∈ splitDot text, p ≠ [] := any_isEmpty_false.1 hemp
  have hn_le : (matchSuffix pslRules (splitDot text)).suffixLabelCount ≤
      (splitDot text).length := by
    have := @matchSuffixRev_count_le pslRules
      ((splitDot text).reverse) (by simpa using hLne)
    simpa [matchSuffix] using this
  have hn_pos : 1 ≤ (matchSuffix pslRules (splitDot text)).suffixLabelCount :=
    matchSuffixRev_count_pos pslRules_value_pos
  set L := splitDot text with hL
  set n := (matchSuffix pslRules L).suffixLabelCount with hn
  have hjoin : (joinDot L).length = text.length := by
    rw [hL, joinDot_splitDot]
  have hsufflab : d.suffixLabels = L.drop (L.length - n) := by
    rw [ParsedName.suffixLabels, hlab, hcount]
  have hdsuf : d.suffixChars = joinDot (L.drop (L.length - n)) := by
    rw [ParsedName.suffixChars, hsufflab, htd]
    simp
  have hroot_eq : d.rootChars =
      (if n < L.length then some (joinDot (L.drop (L.length - (n + 1)))) else none) := by
    rw [ParsedName.rootChars, hlab, htd, hcount]
    simp
  have hdropne : L.drop (L.length - n) ≠ [] := by
    intro h0
    have := congrArg List.length h0
    simp only [List.length_drop, List.length_nil] at this
    omega
  refine ⟨⟨?_, ?_⟩, ?_, ?_, ?_⟩
  · intro h0
    rw [hroot_eq] at h0
    by_cases hc : n < L.length
    · rw [if_pos hc] at h0
      exact Option.noConfusion h0
    · right
      rw [hlab, hcount]
      omega
  · intro h0
    rw [hroot_eq]
    rcases h0 with hsuf | hlt
    · refine if_neg ?_
      intro hc
      have hstrict := length_joinDot_drop_lt (L.length - n) L (by omega) (by omega) hpieces
      rw [hdsuf] at hsuf
      have := congrArg List.length hsuf
      omega
    · rw [hlab, hcount] at hlt
      exact if_neg (by omega)
  · intro r h0
    rw [hroot_eq] at h0
    by_cases hc : n < L.length
    · rw [if_pos hc] at h0
      have hk : L.length - (n + 1) < L.length := by omega
      have harith : L.length - (n + 1) + 1 = L.length - n := by omega
      have hdropk : L.drop (L.length - (n + 1)) =
          L[L.length - (n + 1)] :: L.drop (L.length - n) := by
        rw [List.drop_eq_getElem_cons hk, harith]
      refine ⟨L[L.length - (n + 1)], ?_, ?_⟩
      · rw [hlab]
        exact List.getElem_mem hk
      · rw [hsufflab, ← hdropk]
        exact (Option.some.inj h0).symm
    · rw [if_neg hc] at h0
      exact Option.noConfusion h0
  · rw [hdsuf]
    exact joinDot_ne_nil _ hdropne
      (fun p hp => hpieces p (List.mem_of_mem_drop hp))
  · intro hk0
    have hmk : (matchSuffix pslRules L).isKnown = false := by
      rw [← hknown]
      exact hk0
    rw [hcount, hn]
    exact matchSuffixRev_default hmk

theorem parse_suffix_idempotent_witness :
    ∃ d2, parseDomainName wwwParsed.suffixChars = .ok d2 ∧
      d2.rootChars = none ∧ d2.suffixChars = wwwParsed.suffixChars :=
  parse_suffix_idempotent "www.example.com".toList wwwParsed rfl (by decide)

/-- C6 counterexample: www.city.kobe.jp is accepted with the
exception-carved suffix kobe.jp, yet re-parsing kobe.jp yields root
Some(kobe.jp) — not none — and suffix jp — not the whole re-parsed
input — so re-parsing a suffix is not idempotent in general. -/
theorem parse_suffix_idempotent_counterexample :
    (parseDomainName "www.city.kobe.jp".toList).map
      (fun d => (d.suffixChars, d.rootChars, d.isKnown)) =
      .ok ("kobe.jp".toList, some "city.kobe.jp".toList, true) ∧
    (parseDomainName "kobe.jp".toList).map
      (fun d => (d.rootChars, d.suffixChars)) =
      .ok (some "kobe.jp".toList, "jp".toList) ∧
    some "kobe.jp".toList ≠ (none : Option (List Char)) ∧
    "jp".toList ≠ "kobe.jp".toList := ⟨rfl, rfl, by decide, by decide⟩

theorem root_suffix_invariants_witness :
    ((wwwParsed.rootChars = none ↔
      (wwwParsed.suffixChars = "www.example.com".toList ∨
        wwwParsed.labels.length < wwwParsed.suffixLabelCount + 1)) ∧
    (∀ r, wwwParsed.rootChars = some r →
      ∃ lab ∈ wwwParsed.labels, r = joinDot (lab :: wwwParsed.suffixLabels)) ∧
    wwwParsed.suffixChars ≠ [] ∧
    (wwwParsed.isKnown = false → wwwParsed.suffixLabelCount = 1)) :=
  root_suffix_invariants "www.example.com".toList wwwParsed rfl

/-- C8 (amended): a label whose encoded form exceeds 63 characters always
fails validation with LabelTooLong; no name containing such a label is
ever accepted; and a name whose only flaw is one 64-character label is
rejected with LabelTooLong (earlier whole-name checks, such as the
253-character limit, can pre-empt that error code). -/
theorem label_too_long :
    (∀ (strict : Bool) (enc : List Char), 63 < enc.length →
      validateLabel strict enc = .error Error.LabelTooLong) ∧
    (∀ (text : List Char) (d : ParsedName), parseDomainName text = .ok d →
      ∀ l ∈ d.labels, ∀ e, toAscii l = .ok e → e.length ≤ 63) ∧
    parseDomainName (List.replicate 64 'a' ++ ".com".toList) =
      .error Error.LabelTooLong := by
  refine ⟨?_, ?_, rfl⟩
  · intro strict enc hlen
    cases enc with
    | nil => simp at hlen
    | cons c rest =>
      rw [validateLabel, if_pos hlen]
  · intro text d h l hl e he
    obtain ⟨hlab, -, -, -, -, -, ⟨encs, henc, hval, -⟩, -, -⟩ :=
      parseName_domain_inv h
    have hmem : e ∈ encs := encodeAll_mem henc (hlab ▸ hl) he
    exact validateLabel_ok_length (validateAll_mem hval hmem)

theorem label_too_long_witness :
    validateLabel true (List.replicate 64 'a') = .error Error.LabelTooLong ∧
    (∀ e, toAscii "com".toList = .ok e → e.length ≤ 63) := by
  constructor
  · exact label_too_long.1 true (List.replicate 64 'a') (by decide)
  · intro e he
    exact label_too_long.2.1 "www.example.com".toList wwwParsed rfl
      "com".toList (by decide) e he

set_option maxRecDepth 16384 in
/-- C8 counterexample: a name over 253 characters containing a
64-character label is rejected with NameTooLong, not LabelTooLong, so the
claim as stated fails for that name. -/
theorem label_too_long_counterexample :
    parseDomainName (List.replicate 64 'a' ++ '.' :: List.replicate 200 'b') =
      .error Error.NameTooLong ∧
    (∃ l ∈ splitDot (List.replicate 64 'a' ++ '.' :: List.replicate 200 'b'),
      63 < l.length) ∧
    Error.NameTooLong ≠ Error.LabelTooLong := by
  refine ⟨rfl, ⟨List.replicate 64 'a', ?_, by decide⟩, by decide⟩
  rw [splitDot_append_sep _ _ (by decide), splitDot_no_sep _ (by decide)]
  exact List.mem_cons_self _ _

/-- C10: the Display messages of LabelEndNotAlnum and LabelStartNotAlnum
are interchanged relative to the variant names and to the first/last
character conditions that raise them: a bad first character raises
LabelStartNotAlnum, whose message says the label does not end with an
alphanumeric character, and symmetrically for the last character. -/
theorem display_messages_swapped :
    errorMessage Error.LabelEndNotAlnum =
      "label does not start with an alphanumeric character" ∧
    errorMessage Error.LabelStartNotAlnum =
      "label does not end with a alphanumeric character" ∧
    validateLabel true ['-', 'a'] = .error Error.LabelStartNotAlnum ∧
    validateLabel true ['a', '-'] = .error Error.LabelEndNotAlnum :=
  ⟨rfl, rfl, rfl, rfl⟩

end Psl
